import Mathlib

/-!
Shallow embedding of the OSPF Flap Test Trend Analyzer (`tend.py`).

Result records are Python dicts; we model the fields the analyzer reads as
`Option`-valued fields (`none` = key absent).  Numeric values (Python floats)
are modelled as exact rationals `ℚ`; every comparison and threshold the
analyzer performs on them is decided identically on `ℚ` for the data in
scope (in particular `n > 6 * 0.3` agrees with the float comparison for all
integers `n`).  Fallible operations (dict lookups, iteration over
non-iterables, division) return `Except PyErr`, mirroring Python exceptions.
-/

deriving instance DecidableEq for Except

unseal Rat.add Rat.mul Rat.inv Rat.sub

namespace Tend

/-- One OSPF neighbor's parsed info; the analyzer reads only its `state`. -/
structure NeighborInfo where
  state : String
deriving DecidableEq, Repr

/-- Value stored under `baseline_neighbors` / `final_neighbors`: upstream
producers write either a mapping from neighbor id to neighbor info
(`ospf_flap_test_advanced.py`) or a bare integer count
(`ospf_flap_test_advanced_scalable.py`). -/
inductive NeighborsVal where
  | nMap (entries : List (String × NeighborInfo))
  | nCount (n : Int)
deriving DecidableEq, Repr

/-- One flap-test result record as loaded from JSON.  `none` means the key is
absent from the dict.  `test_run` is (re)assigned by the loader, so it is a
plain field. -/
structure Record where
  device : Option String
  interface : Option String
  status : Option String
  convergence_time : Option ℚ
  baseline_neighbors : Option NeighborsVal
  final_neighbors : Option NeighborsVal
  test_run : String
deriving DecidableEq, Repr

/-- Python exceptions the analyzer can raise during computation. -/
inductive PyErr where
  | keyError (key : String)
  | typeError
  | zeroDivisionError
deriving DecidableEq, Repr

/-- Python dict lookup `result[k]`: raises `KeyError` when absent. -/
def getKey {α : Type} (o : Option α) (k : String) : Except PyErr α :=
  match o with
  | some v => .ok v
  | none => .error (.keyError k)

/-- One sample appended to `by_interface[key]`:
`{'timestamp': ..., 'time': ..., 'status': ...}`. -/
structure Measurement where
  timestamp : String
  time : ℚ
  status : String
deriving DecidableEq, Repr

/-- The grouping key `f"{result['device']}-{result['interface']}"`; raises
`KeyError` when either field is absent. -/
def recKey (r : Record) : Except PyErr String :=
  match getKey r.device "device" with
  | .error e => .error e
  | .ok d =>
    match getKey r.interface "interface" with
    | .error e => .error e
    | .ok i => .ok (d ++ "-" ++ i)

/-- First-match association-list lookup (Python dict access by key). -/
def lookupA {β : Type} (l : List (String × β)) (k : String) : Option β :=
  match l with
  | [] => none
  | (k', v) :: rest => if k' = k then some v else lookupA rest k

/-- The effect of `by_interface[key].append(v)` on a `defaultdict(list)`
represented as an insertion-ordered association list. -/
def addMeas (acc : List (String × List Measurement)) (k : String) (v : Measurement) :
    List (String × List Measurement) :=
  match acc with
  | [] => [(k, [v])]
  | (k', vs) :: rest => if k' = k then (k', vs ++ [v]) :: rest else (k', vs) :: addMeas rest k v

/-- The grouping loop of `analyze_convergence_trends` (lines 51-58): for each
record compute the key, and when `convergence_time` is present append the
`{timestamp, time, status}` sample to the key's list. -/
def groupGo (results : List Record) (acc : List (String × List Measurement)) :
    Except PyErr (List (String × List Measurement)) :=
  match results with
  | [] => .ok acc
  | r :: rest =>
    match recKey r with
    | .error e => .error e
    | .ok k =>
      match r.convergence_time with
      | none => groupGo rest acc
      | some t =>
        match getKey r.status "status" with
        | .error e => .error e
        | .ok st => groupGo rest (addMeas acc k ⟨r.test_run, t, st⟩)

/-- `by_interface` after the grouping loop. -/
def groupByInterface (results : List Record) :
    Except PyErr (List (String × List Measurement)) :=
  groupGo results []

/-- Python `min` over a nonempty list (junk value 0 on `[]`, never used). -/
def listMin : List ℚ → ℚ
  | [] => 0
  | t :: ts => ts.foldl min t

/-- Python `max` over a nonempty list (junk value 0 on `[]`, never used). -/
def listMax : List ℚ → ℚ
  | [] => 0
  | t :: ts => ts.foldl max t

/-- Per-key trend statistics stored in `trends[interface]`. -/
structure TrendEntry where
  measurements : ℕ
  average : ℚ
  min : ℚ
  max : ℚ
  first_half_avg : ℚ
  second_half_avg : ℚ
  trend : String
  data : List Measurement
deriving DecidableEq, Repr

/-- The per-key statistics block of `analyze_convergence_trends`
(lines 65-84), computed only when the key has at least 2 measurements, so
`len(times) // 2 >= 1` and no division is by zero. -/
def mkTrendEntry (ms : List Measurement) : TrendEntry :=
  let times := ms.map Measurement.time
  let n := times.length
  let h := n / 2
  let first_half := (times.take h).sum / (h : ℚ)
  let second_half := (times.drop h).sum / ((n - h : ℕ) : ℚ)
  { measurements := ms.length
    average := times.sum / (n : ℚ)
    min := listMin times
    max := listMax times
    first_half_avg := first_half
    second_half_avg := second_half
    trend :=
      if second_half < first_half then "IMPROVING"
      else if second_half > first_half then "DEGRADING"
      else "STABLE"
    data := ms }

/-- `analyze_convergence_trends` (lines 46-86): group samples by
device-interface key, skip keys with fewer than 2 samples (`continue`), and
compute the statistics block for the rest, preserving dict insertion order. -/
def analyze_convergence_trends (results : List Record) :
    Except PyErr (List (String × TrendEntry)) :=
  match groupByInterface results with
  | .error e => .error e
  | .ok byInterface =>
    .ok (byInterface.filterMap fun p =>
      if p.2.length < 2 then none else some (p.1, mkTrendEntry p.2))

/-- The fleet-wide counters of `analyze_stability`.  The Python dict always
has exactly these 6 keys. -/
structure Stability where
  total_tests : ℕ
  passed : ℕ
  partial_ : ℕ
  failed : ℕ
  dr_bdr_changes : ℕ
  avg_convergence : ℚ
deriving DecidableEq, Repr

/-- The DR/BDR comparison of `analyze_stability` (lines 113-120) on one
record: when both neighbor fields are present, iterate the baseline's keys
and count neighbors present in both whose `state` differs.  Iterating an
integer count (`for neighbor in <int>`) raises `TypeError`, as does the
membership test `neighbor in <int>`. -/
def drGo (fv : NeighborsVal) (bEntries : List (String × NeighborInfo)) (acc : ℕ) :
    Except PyErr ℕ :=
  match bEntries with
  | [] => .ok acc
  | e :: rest =>
    match fv with
    | .nCount _ => .error .typeError
    | .nMap fEntries =>
      match lookupA fEntries e.1 with
      | some fInfo => drGo fv rest (if e.2.state ≠ fInfo.state then acc + 1 else acc)
      | none => drGo fv rest acc

/-- The DR/BDR comparison applied to one record when both fields are
present. -/
def drBdrDelta (r : Record) : Except PyErr ℕ :=
  match r.baseline_neighbors, r.final_neighbors with
  | some bv, some fv =>
    match bv with
    | .nCount _ => .error .typeError
    | .nMap bEntries => drGo fv bEntries 0
  | _, _ => .ok 0

/-- The status counting of `analyze_stability` (lines 103-108): `PASSED` /
`PARTIAL` / anything else counted as failed. -/
def statusBump (s : Stability) (st : String) : Stability :=
  if st = "PASSED" then { s with passed := s.passed + 1 }
  else if st = "PARTIAL" then { s with partial_ := s.partial_ + 1 }
  else { s with failed := s.failed + 1 }

/-- The per-record loop of `analyze_stability` (lines 102-120): count by
status (`PASSED` / `PARTIAL` / anything else), collect `convergence_time`
values, and accumulate DR/BDR state changes. -/
def stabGo (results : List Record) (s : Stability) (ctimes : List ℚ) :
    Except PyErr (Stability × List ℚ) :=
  match results with
  | [] => .ok (s, ctimes)
  | r :: rest =>
    match getKey r.status "status" with
    | .error e => .error e
    | .ok st =>
      let s := statusBump s st
      let ctimes :=
        match r.convergence_time with
        | some t => ctimes ++ [t]
        | none => ctimes
      match drBdrDelta r with
      | .error e => .error e
      | .ok d => stabGo rest { s with dr_bdr_changes := s.dr_bdr_changes + d } ctimes

/-- `analyze_stability` (lines 89-125): run the per-record loop from the
all-zero counters (with `total_tests = len(results)`), then set
`avg_convergence` only when at least one convergence time was collected. -/
def analyze_stability (results : List Record) : Except PyErr Stability :=
  match stabGo results
      { total_tests := results.length, passed := 0, partial_ := 0, failed := 0
        dr_bdr_changes := 0, avg_convergence := 0 } [] with
  | .error e => .error e
  | .ok (s, ctimes) =>
    .ok (if ctimes.isEmpty then s
      else { s with avg_convergence := ctimes.sum / (ctimes.length : ℚ) })

/-- Python division: raises `ZeroDivisionError` on a zero divisor (also for
floats). -/
def pyDiv (a b : ℚ) : Except PyErr ℚ :=
  if b = 0 then .error .zeroDivisionError else .ok (a / b)

/-- Insert one keyed entry into a list sorted by key. -/
def insertByKey (p : String × TrendEntry) : List (String × TrendEntry) → List (String × TrendEntry)
  | [] => [p]
  | q :: rest => if p.1 < q.1 then p :: q :: rest else q :: insertByKey p rest

/-- Python `sorted(trends.items())`: sort the per-key blocks by key. -/
def sortByKey (l : List (String × TrendEntry)) : List (String × TrendEntry) :=
  l.foldl (fun acc p => insertByKey p acc) []

/-- The computed content of the text report: the numbers produced by its
divisions and the boolean outcome of each recommendation line.  The literal
strings, timestamps and number formatting around them are presentation
only. -/
structure Report where
  total_tests : ℕ
  passed_pct : ℚ
  partial_pct : ℚ
  failed_pct : ℚ
  interface_blocks : List (String × Option ℚ)
  degrading_interfaces : List String
  warn_degrading : Bool
  warn_dr_bdr : Bool
  warn_convergence : Bool
  success_line : Bool
deriving DecidableEq, Repr

/-- Number of keys of the `stability_metrics` dict: it is created with 6 keys
and none is ever added or removed, so `len(stability) == 6` always. -/
def stabilityDictLen : ℚ := 6

/-- The improvement / degradation percentage printed in a per-interface block
(lines 163-170): computed only when the trend is `IMPROVING` or `DEGRADING`,
dividing by `first_half_avg`. -/
def blockExtra (t : TrendEntry) : Except PyErr (Option ℚ) :=
  if t.trend = "IMPROVING" then
    match pyDiv (t.first_half_avg - t.second_half_avg) t.first_half_avg with
    | .error e => .error e
    | .ok v => .ok (some (v * 100))
  else if t.trend = "DEGRADING" then
    match pyDiv (t.second_half_avg - t.first_half_avg) t.first_half_avg with
    | .error e => .error e
    | .ok v => .ok (some (v * 100))
  else .ok none

/-- The per-interface report blocks, in sorted order. -/
def blocksGo (l : List (String × TrendEntry)) (acc : List (String × Option ℚ)) :
    Except PyErr (List (String × Option ℚ)) :=
  match l with
  | [] => .ok acc
  | p :: rest =>
    match blockExtra p.2 with
    | .error e => .error e
    | .ok extra => blocksGo rest (acc ++ [(p.1, extra)])

/-- `generate_trend_report` (lines 128-199): overall stability block with the
three percentage divisions, per-interface blocks sorted by key, and the
recommendations block (three independent warnings, success line when there is
no degrading interface and no failed test).  The DR/BDR threshold is
`len(stability) * 0.3 = 1.8`. -/
def generate_trend_report (trends : List (String × TrendEntry)) (stability : Stability) :
    Except PyErr Report :=
  match pyDiv (stability.passed : ℚ) (stability.total_tests : ℚ),
      pyDiv (stability.partial_ : ℚ) (stability.total_tests : ℚ),
      pyDiv (stability.failed : ℚ) (stability.total_tests : ℚ) with
  | .error e, _, _ => .error e
  | .ok _, .error e, _ => .error e
  | .ok _, .ok _, .error e => .error e
  | .ok p, .ok q, .ok f =>
    match blocksGo (sortByKey trends) [] with
    | .error e => .error e
    | .ok blocks =>
      let degrading := (trends.filter fun p => p.2.trend = "DEGRADING").map Prod.fst
      .ok {
        total_tests := stability.total_tests
        passed_pct := p * 100
        partial_pct := q * 100
        failed_pct := f * 100
        interface_blocks := blocks
        degrading_interfaces := degrading
        warn_degrading := !degrading.isEmpty
        warn_dr_bdr := decide ((stability.dr_bdr_changes : ℚ) > stabilityDictLen * (3 / 10))
        warn_convergence := decide (stability.avg_convergence > 10)
        success_line := degrading.isEmpty && decide (stability.failed = 0) }

/-- The whole in-memory computation `main` performs after loading (lines
308-312): trends, stability, report. -/
def runAnalysis (results : List Record) : Except PyErr Report :=
  match analyze_convergence_trends results with
  | .error e => .error e
  | .ok trends =>
    match analyze_stability results with
    | .error e => .error e
    | .ok stability => generate_trend_report trends stability

/-- One discovered result file: the name of its parent directory
(`ospf_flap_<timestamp>`) and its parsed JSON array, `none` when opening or
parsing raised (the file is then skipped with a warning). -/
structure ResultFile where
  dirname : String
  data : Option (List Record)
deriving DecidableEq, Repr

/-- Python `str.replace(pat, '')` run on character lists: remove the leftmost
occurrence of `pat`, continue after it, never re-examining removed text.  The
fuel starts at the string length; each step consumes at least one character,
so fuel never runs out. -/
def replGo (pat : List Char) : ℕ → List Char → List Char
  | _, [] => []
  | 0, s => s
  | fuel + 1, c :: rest =>
    if (c :: rest).take pat.length = pat ∧ pat ≠ [] then
      replGo pat fuel ((c :: rest).drop pat.length)
    else c :: replGo pat fuel rest

/-- `name.replace(pat, '')`: remove every (non-overlapping, left-to-right)
occurrence of `pat` from `name`. -/
def strReplaceEmpty (name pat : String) : String :=
  ⟨replGo pat.data name.data.length name.data⟩

/-- The file loop of `load_all_results`: for each readable file, extract the
run timestamp as `parent.name.replace('ospf_flap_', '')`, set it as
`test_run` on every record, and append the records one by one to the global
list; unreadable files are skipped (the `except` branch). -/
def loadGo (files : List ResultFile) (all_results : List Record) : List Record :=
  match files with
  | [] => all_results
  | f :: rest =>
    match f.data with
    | none => loadGo rest all_results
    | some data =>
      let timestamp_str := strReplaceEmpty f.dirname "ospf_flap_"
      loadGo rest
        (data.foldl (fun acc r => acc ++ [{ r with test_run := timestamp_str }]) all_results)

/-- `load_all_results` (lines 26-43), starting from the empty list. -/
def load_all_results (files : List ResultFile) : List Record :=
  loadGo files []

/-- `find_all_result_files` (lines 16-23): empty when the directory does not
exist, otherwise the (sorted) glob matches, taken here as given. -/
def find_all_result_files (dirExists : Bool) (files : List ResultFile) : List ResultFile :=
  if dirExists then files else []

/-- Exit status of `main` (lines 284-333) as a function of the filesystem
inputs: exit 1 when no result files are found; otherwise run the analysis,
where an uncaught exception makes the interpreter exit 1, and normal
completion exits 0.  Report writing is an external side effect. -/
def main (dirExists : Bool) (files : List ResultFile) : ℕ :=
  let json_files := find_all_result_files dirExists files
  if json_files.isEmpty then 1
  else
    let all_results := load_all_results json_files
    match runAnalysis all_results with
    | .ok _ => 0
    | .error _ => 1

/-! Specification-side definitions, written from the claims' words, to be
compared with the embedded code. -/

/-- Arithmetic mean of a list of rationals. -/
def mean (l : List ℚ) : ℚ := l.sum / (l.length : ℚ)

/-- The device-interface key of a record, as a total function (used only on
records whose fields are known to be present). -/
def recKeyTotal (r : Record) : String :=
  r.device.getD "" ++ "-" ++ r.interface.getD ""

/-- The ordered sample list a given key receives: one sample per record whose
key matches and which carries `convergence_time`, in record order. -/
def measurementsOf (results : List Record) (k : String) : List Measurement :=
  match results with
  | [] => []
  | r :: rest =>
    match r.convergence_time with
    | some t =>
      if recKeyTotal r = k then ⟨r.test_run, t, r.status.getD ""⟩ :: measurementsOf rest k
      else measurementsOf rest k
    | none => measurementsOf rest k

/-- Trend classification in the claim's order: `DEGRADING` when the
second-half mean exceeds the first-half mean, `IMPROVING` when it is smaller,
`STABLE` on a tie. -/
def trendSpec (ts : List ℚ) : String :=
  if mean (ts.drop (ts.length / 2)) > mean (ts.take (ts.length / 2)) then "DEGRADING"
  else if mean (ts.drop (ts.length / 2)) < mean (ts.take (ts.length / 2)) then "IMPROVING"
  else "STABLE"

/-- Claim-side count for one record: the number of neighbor keys occurring in
both neighbor mappings whose states differ; 0 when either field is absent or
not a mapping. -/
def mismatchCount (r : Record) : ℕ :=
  match r.baseline_neighbors, r.final_neighbors with
  | some (.nMap b), some (.nMap f) =>
    (b.filter fun e =>
      match lookupA f e.1 with
      | some fInfo => decide (e.2.state ≠ fInfo.state)
      | none => false).length
  | _, _ => 0

/-- A neighbor field that cannot raise `TypeError`: absent or a mapping. -/
def nbOk : Option NeighborsVal → Bool
  | some (.nCount _) => false
  | _ => true

/-- The fields `analyze_convergence_trends` requires of a record. -/
def convWF (r : Record) : Bool :=
  r.device.isSome && r.interface.isSome && (!r.convergence_time.isSome || r.status.isSome)

/-- Schema-validity of a record: every field the analyzer looks up is
present, and neighbor fields (when present) are mappings. -/
def wfRecord (r : Record) : Bool :=
  r.device.isSome && r.interface.isSome && r.status.isSome &&
    nbOk r.baseline_neighbors && nbOk r.final_neighbors

/-- All convergence times of a record (if any) are positive. -/
def posTimes (r : Record) : Bool :=
  match r.convergence_time with
  | some t => decide (0 < t)
  | none => true

/-- Removal of the literal prefix `ospf_flap_` from a directory name, as the
spec words it ("the name with the 'ospf_flap_' prefix removed"). -/
def stripRunPrefixSpec (name : String) : String :=
  if name.data.take 10 = "ospf_flap_".data then ⟨name.data.drop 10⟩ else name

/-! Association-list lemmas for the `defaultdict` model. -/

/-- Keys of an association list are pairwise distinct (true of Python dicts). -/
def NodupKeys {β : Type} (l : List (String × β)) : Prop := (l.map Prod.fst).Nodup

lemma lookupA_eq_none_iff {β : Type} (l : List (String × β)) (k : String) :
    lookupA l k = none ↔ k ∉ l.map Prod.fst := by
  induction l with
  | nil => simp [lookupA]
  | cons p rest ih =>
    obtain ⟨k', v⟩ := p
    by_cases h : k' = k
    · subst h
      simp [lookupA]
    · have h' : ¬ k = k' := fun hc => h hc.symm
      simp [lookupA, h, h', ih]

lemma mem_of_lookupA_some {β : Type} {l : List (String × β)} {k : String} {v : β}
    (h : lookupA l k = some v) : (k, v) ∈ l := by
  induction l with
  | nil => simp [lookupA] at h
  | cons p rest ih =>
    obtain ⟨k', v'⟩ := p
    by_cases hk : k' = k
    · subst hk
      simp [lookupA] at h
      subst h
      exact List.mem_cons_self _ _
    · simp [lookupA, hk] at h
      exact List.mem_cons_of_mem _ (ih h)

lemma lookupA_some_of_mem {β : Type} {l : List (String × β)} {k : String} {v : β}
    (hnd : NodupKeys l) (h : (k, v) ∈ l) : lookupA l k = some v := by
  induction l with
  | nil => simp at h
  | cons p rest ih =>
    obtain ⟨k', v'⟩ := p
    have hnd' : (k' :: rest.map Prod.fst).Nodup := by simpa [NodupKeys] using hnd
    have hnd2 := List.nodup_cons.mp hnd'
    rcases List.mem_cons.mp h with h1 | h1
    · cases h1
      simp [lookupA]
    · have hkmem : k ∈ rest.map Prod.fst := List.mem_map.mpr ⟨(k, v), h1, rfl⟩
      have hk' : k' ≠ k := fun hc => hnd2.1 (hc.symm ▸ hkmem)
      simpa [lookupA, hk'] using ih hnd2.2 h1

lemma mem_iff_lookupA {β : Type} {l : List (String × β)} (hnd : NodupKeys l)
    (k : String) (v : β) : (k, v) ∈ l ↔ lookupA l k = some v :=
  ⟨lookupA_some_of_mem hnd, mem_of_lookupA_some⟩

lemma addMeas_lookup_self (acc : List (String × List Measurement)) (k : String)
    (v : Measurement) :
    lookupA (addMeas acc k v) k = some ((lookupA acc k).getD [] ++ [v]) := by
  induction acc with
  | nil => simp [addMeas, lookupA]
  | cons p rest ih =>
    obtain ⟨k', vs⟩ := p
    by_cases h : k' = k
    · simp [addMeas, h, lookupA]
    · simp [addMeas, h, lookupA, ih]

lemma addMeas_lookup_ne (acc : List (String × List Measurement)) {k k' : String}
    (v : Measurement) (h : k' ≠ k) :
    lookupA (addMeas acc k v) k' = lookupA acc k' := by
  have h' : ¬ k = k' := fun hc => h hc.symm
  induction acc with
  | nil => simp [addMeas, lookupA, h']
  | cons p rest ih =>
    obtain ⟨k'', vs⟩ := p
    by_cases h2 : k'' = k
    · subst h2
      simp [addMeas, lookupA, h']
    · simp [addMeas, h2, lookupA, ih]

lemma addMeas_keys (acc : List (String × List Measurement)) (k : String) (v : Measurement) :
    (addMeas acc k v).map Prod.fst =
      if k ∈ acc.map Prod.fst then acc.map Prod.fst else acc.map Prod.fst ++ [k] := by
  induction acc with
  | nil => simp [addMeas]
  | cons p rest ih =>
    obtain ⟨k', vs⟩ := p
    by_cases h : k' = k
    · simp [addMeas, h]
    · have : ¬ k = k' := fun hc => h hc.symm
      by_cases h2 : k ∈ rest.map Prod.fst <;> simp [addMeas, h, ih, h2, this]

lemma addMeas_nodupKeys {acc : List (String × List Measurement)} {k : String}
    {v : Measurement} (h : NodupKeys acc) : NodupKeys (addMeas acc k v) := by
  unfold NodupKeys
  rw [addMeas_keys]
  by_cases hk : k ∈ acc.map Prod.fst
  · simpa [hk] using h
  · simp only [hk, if_false]
    rw [List.nodup_append]
    refine ⟨h, List.nodup_singleton k, ?_⟩
    intro a ha hb
    rw [List.mem_singleton] at hb
    exact hk (hb ▸ ha)

/-! The grouping loop: its successful result, characterised by lookups. -/

/-- How the measurements a key receives from a record list extend the
key's existing list in the accumulator. -/
def combineOpt (o : Option (List Measurement)) (ms : List Measurement) :
    Option (List Measurement) :=
  match o with
  | some xs => some (xs ++ ms)
  | none => if ms = [] then none else some ms

lemma combineOpt_nil (o : Option (List Measurement)) : combineOpt o [] = o := by
  cases o <;> simp [combineOpt]

lemma combineOpt_cons (o : Option (List Measurement)) (v : Measurement)
    (ms : List Measurement) : combineOpt o (v :: ms) = some (o.getD [] ++ v :: ms) := by
  cases o <;> simp [combineOpt]

lemma getKey_ok {α : Type} {o : Option α} {k : String} {v : α}
    (h : getKey o k = .ok v) : o = some v := by
  cases o <;> simp [getKey] at h <;> simp [h]

lemma recKey_ok_total {r : Record} {k : String} (h : recKey r = .ok k) :
    recKeyTotal r = k := by
  unfold recKey at h
  cases hd : r.device <;> cases hi : r.interface <;>
    simp [hd, hi, getKey] at h <;> simp [recKeyTotal, hd, hi, h]

lemma groupGo_ok_lookup :
    ∀ (results : List Record) (acc m : List (String × List Measurement)),
      groupGo results acc = .ok m →
      ∀ k, lookupA m k = combineOpt (lookupA acc k) (measurementsOf results k) := by
  intro results
  induction results with
  | nil =>
    intro acc m h k
    simp only [groupGo] at h
    cases h
    simp [measurementsOf, combineOpt_nil]
  | cons r rest ih =>
    intro acc m h k
    cases hrk : recKey r with
    | error e =>
      simp only [groupGo, hrk] at h
      cases h
    | ok kr =>
      cases hct : r.convergence_time with
      | none =>
        simp only [groupGo, hrk, hct] at h
        rw [ih acc m h k]
        congr 1
        simp [measurementsOf, hct]
      | some t =>
        cases hst : getKey r.status "status" with
        | error e =>
          simp only [groupGo, hrk, hct, hst] at h
          cases h
        | ok st =>
          simp only [groupGo, hrk, hct, hst] at h
          have hkey : recKeyTotal r = kr := recKey_ok_total hrk
          have hstat : r.status = some st := getKey_ok hst
          rw [ih _ m h k]
          by_cases hk : kr = k
          · subst hk
            rw [addMeas_lookup_self]
            simp only [measurementsOf, hct, if_pos hkey]
            rw [combineOpt_cons]
            simp [combineOpt, hstat]
          · have h' : ¬ recKeyTotal r = k := fun hc => hk (hkey ▸ hc)
            rw [addMeas_lookup_ne _ _ (fun hc => hk hc.symm)]
            simp only [measurementsOf, hct, if_neg h']

lemma groupGo_nodupKeys :
    ∀ (results : List Record) (acc m : List (String × List Measurement)),
      groupGo results acc = .ok m → NodupKeys acc → NodupKeys m := by
  intro results
  induction results with
  | nil =>
    intro acc m h hnd
    simp only [groupGo] at h
    cases h
    exact hnd
  | cons r rest ih =>
    intro acc m h hnd
    cases hrk : recKey r with
    | error e =>
      simp only [groupGo, hrk] at h
      cases h
    | ok kr =>
      cases hct : r.convergence_time with
      | none =>
        simp only [groupGo, hrk, hct] at h
        exact ih acc m h hnd
      | some t =>
        cases hst : getKey r.status "status" with
        | error e =>
          simp only [groupGo, hrk, hct, hst] at h
          cases h
        | ok st =>
          simp only [groupGo, hrk, hct, hst] at h
          exact ih _ m h (addMeas_nodupKeys hnd)

lemma groupGo_error_key :
    ∀ (results : List Record) (acc : List (String × List Measurement)) (e : PyErr),
      groupGo results acc = .error e → ∃ k, e = .keyError k := by
  intro results
  induction results with
  | nil =>
    intro acc e h
    simp only [groupGo] at h
    cases h
  | cons r rest ih =>
    intro acc e h
    cases hrk : recKey r with
    | error e' =>
      simp only [groupGo, hrk] at h
      injection h with h2
      subst h2
      unfold recKey at hrk
      cases hd : r.device with
      | none =>
        simp only [hd, getKey] at hrk
        injection hrk with h3
        exact ⟨"device", h3.symm⟩
      | some d =>
        cases hi : r.interface with
        | none =>
          simp only [hd, hi, getKey] at hrk
          injection hrk with h3
          exact ⟨"interface", h3.symm⟩
        | some i => simp [hd, hi, getKey] at hrk
    | ok kr =>
      cases hct : r.convergence_time with
      | none =>
        simp only [groupGo, hrk, hct] at h
        exact ih acc e h
      | some t =>
        cases hst : getKey r.status "status" with
        | error e' =>
          simp only [groupGo, hrk, hct, hst] at h
          injection h with h2
          subst h2
          cases hs : r.status with
          | none =>
            simp only [hs, getKey] at hst
            injection hst with h3
            exact ⟨"status", h3.symm⟩
          | some s => simp [hs, getKey] at hst
        | ok st =>
          simp only [groupGo, hrk, hct, hst] at h
          exact ih _ e h

lemma convWF_iff (r : Record) :
    convWF r = true ↔
      r.device.isSome = true ∧ r.interface.isSome = true ∧
        (r.convergence_time.isSome = true → r.status.isSome = true) := by
  unfold convWF
  cases r.convergence_time <;> cases r.status <;> cases r.device <;> cases r.interface <;> simp

lemma recKey_ok_of_fields {r : Record} {d i : String}
    (hd : r.device = some d) (hi : r.interface = some i) :
    recKey r = .ok (d ++ "-" ++ i) := by
  simp [recKey, getKey, hd, hi]

lemma recKey_ok_fields {r : Record} {k : String} (h : recKey r = .ok k) :
    r.device.isSome = true ∧ r.interface.isSome = true := by
  unfold recKey at h
  cases hd : r.device <;> cases hi : r.interface <;> simp [hd, hi, getKey] at h <;> simp

lemma groupGo_ok_iff :
    ∀ (results : List Record) (acc : List (String × List Measurement)),
      (∃ m, groupGo results acc = .ok m) ↔ ∀ r ∈ results, convWF r = true := by
  intro results
  induction results with
  | nil => intro acc; simp [groupGo]
  | cons r rest ih =>
    intro acc
    constructor
    · rintro ⟨m, h⟩ r' hr'
      cases hrk : recKey r with
      | error e =>
        simp only [groupGo, hrk] at h
        cases h
      | ok kr =>
        have hfields := recKey_ok_fields hrk
        cases hct : r.convergence_time with
        | none =>
          simp only [groupGo, hrk, hct] at h
          rcases List.mem_cons.mp hr' with rfl | hr2
          · rw [convWF_iff]
            exact ⟨hfields.1, hfields.2, by simp [hct]⟩
          · exact ((ih acc).mp ⟨m, h⟩) r' hr2
        | some t =>
          cases hst : getKey r.status "status" with
          | error e =>
            simp only [groupGo, hrk, hct, hst] at h
            cases h
          | ok st =>
            simp only [groupGo, hrk, hct, hst] at h
            rcases List.mem_cons.mp hr' with rfl | hr2
            · rw [convWF_iff]
              exact ⟨hfields.1, hfields.2, by simp [getKey_ok hst]⟩
            · exact ((ih _).mp ⟨m, h⟩) r' hr2
    · intro hall
      have hr := hall r (List.mem_cons_self r rest)
      rw [convWF_iff] at hr
      obtain ⟨d, hd⟩ := Option.isSome_iff_exists.mp hr.1
      obtain ⟨i, hi⟩ := Option.isSome_iff_exists.mp hr.2.1
      have hrk := recKey_ok_of_fields hd hi
      cases hct : r.convergence_time with
      | none =>
        obtain ⟨m, hm⟩ := (ih acc).mpr fun r' hr' => hall r' (List.mem_cons_of_mem r hr')
        exact ⟨m, by simp only [groupGo, hrk, hct]; exact hm⟩
      | some t =>
        have hstS : r.status.isSome = true := hr.2.2 (by simp [hct])
        obtain ⟨st, hst⟩ := Option.isSome_iff_exists.mp hstS
        obtain ⟨m, hm⟩ :=
          (ih (addMeas acc (d ++ "-" ++ i) ⟨r.test_run, t, st⟩)).mpr
            fun r' hr' => hall r' (List.mem_cons_of_mem r hr')
        refine ⟨m, ?_⟩
        simp only [groupGo, hrk, hct, getKey, hst]
        exact hm

lemma analyze_convergence_trends_ok_iff (results : List Record) :
    (∃ t, analyze_convergence_trends results = .ok t) ↔ ∀ r ∈ results, convWF r = true := by
  rw [← groupGo_ok_iff results []]
  unfold analyze_convergence_trends groupByInterface
  constructor
  · rintro ⟨t, ht⟩
    cases hg : groupGo results [] with
    | error e => rw [hg] at ht; cases ht
    | ok m => exact ⟨m, rfl⟩
  · rintro ⟨m, hm⟩
    rw [hm]
    exact ⟨_, rfl⟩

lemma analyze_convergence_trends_error_key {results : List Record} {e : PyErr}
    (h : analyze_convergence_trends results = .error e) : ∃ k, e = .keyError k := by
  unfold analyze_convergence_trends groupByInterface at h
  cases hg : groupGo results [] with
  | error e' =>
    rw [hg] at h
    injection h with h2
    subst h2
    exact groupGo_error_key results [] _ hg
  | ok m => rw [hg] at h; cases h

lemma trends_mem_iff {results : List Record} {trends : List (String × TrendEntry)}
    (h : analyze_convergence_trends results = .ok trends) (k : String) (e : TrendEntry) :
    (k, e) ∈ trends ↔
      2 ≤ (measurementsOf results k).length ∧ e = mkTrendEntry (measurementsOf results k) := by
  unfold analyze_convergence_trends groupByInterface at h
  cases hg : groupGo results [] with
  | error e' => rw [hg] at h; cases h
  | ok m =>
    rw [hg] at h
    injection h with h2
    subst h2
    have hnd : NodupKeys m := groupGo_nodupKeys results [] m hg (by simp [NodupKeys])
    have hlk : ∀ k', lookupA m k' = combineOpt none (measurementsOf results k') := by
      intro k'
      have := groupGo_ok_lookup results [] m hg k'
      simpa [lookupA] using this
    constructor
    · intro hmem
      rcases List.mem_filterMap.mp hmem with ⟨⟨k', ms⟩, hpm, hf⟩
      by_cases hlen : ms.length < 2
      · simp [hlen] at hf
      · simp only [hlen, if_neg, if_false] at hf
        injection hf with hf1
        rw [Prod.mk.injEq] at hf1
        obtain ⟨rfl, rfl⟩ := hf1
        have hsome := lookupA_some_of_mem hnd hpm
        rw [hlk k'] at hsome
        unfold combineOpt at hsome
        by_cases hem : measurementsOf results k' = []
        · simp [hem] at hsome
        · simp only [hem, if_neg, if_false] at hsome
          injection hsome with h3
          subst h3
          exact ⟨not_lt.mp hlen, rfl⟩
    · rintro ⟨hlen, rfl⟩
      apply List.mem_filterMap.mpr
      refine ⟨(k, measurementsOf results k), ?_, ?_⟩
      · apply mem_of_lookupA_some
        rw [hlk k]
        have hne : measurementsOf results k ≠ [] := by
          intro hc
          rw [hc] at hlen
          simp at hlen
        simp [combineOpt, hne]
      · have hnl : ¬ (measurementsOf results k).length < 2 := not_lt.mpr hlen
        simp [hnl]

/-! Stability lemmas. -/

lemma statusBump_total (s : Stability) (st : String) :
    (statusBump s st).total_tests = s.total_tests := by
  unfold statusBump
  split <;> try split
  all_goals rfl

lemma statusBump_dr (s : Stability) (st : String) :
    (statusBump s st).dr_bdr_changes = s.dr_bdr_changes := by
  unfold statusBump
  split <;> try split
  all_goals rfl

lemma statusBump_avg (s : Stability) (st : String) :
    (statusBump s st).avg_convergence = s.avg_convergence := by
  unfold statusBump
  split <;> try split
  all_goals rfl

lemma statusBump_counts (s : Stability) (st : String) :
    (statusBump s st).passed + (statusBump s st).partial_ + (statusBump s st).failed =
      s.passed + s.partial_ + s.failed + 1 := by
  unfold statusBump
  split
  · simp only []
    omega
  · split
    · simp only []
      omega
    · simp only []
      omega

lemma drGo_nMap_ok :
    ∀ (b f : List (String × NeighborInfo)) (acc : ℕ),
      ∃ d, drGo (.nMap f) b acc = .ok d := by
  intro b
  induction b with
  | nil => intro f acc; exact ⟨acc, rfl⟩
  | cons e rest ih =>
    intro f acc
    cases hl : lookupA f e.1 with
    | some fi =>
      obtain ⟨d, hd⟩ := ih f (if e.2.state ≠ fi.state then acc + 1 else acc)
      exact ⟨d, by simp only [drGo, hl]; exact hd⟩
    | none =>
      obtain ⟨d, hd⟩ := ih f acc
      exact ⟨d, by simp only [drGo, hl]; exact hd⟩

lemma drGo_nMap_count :
    ∀ (b f : List (String × NeighborInfo)) (acc d : ℕ),
      drGo (.nMap f) b acc = .ok d →
      d = acc + (b.filter fun e =>
        match lookupA f e.1 with
        | some fInfo => decide (e.2.state ≠ fInfo.state)
        | none => false).length := by
  intro b
  induction b with
  | nil =>
    intro f acc d h
    simp only [drGo] at h
    injection h with h2
    simp [h2.symm]
  | cons e rest ih =>
    intro f acc d h
    cases hl : lookupA f e.1 with
    | some fi =>
      simp only [drGo, hl] at h
      have := ih f _ d h
      by_cases hs : e.2.state = fi.state
      · simp only [hs, ne_eq, not_true_eq_false, if_false, ite_false] at this ⊢
        simp [List.filter_cons, hl, hs, this]
      · simp only [ne_eq, hs, not_false_eq_true, if_true, ite_true] at this
        simp [List.filter_cons, hl, hs, this]
        omega
    | none =>
      simp only [drGo, hl] at h
      simp [List.filter_cons, hl, ih f acc d h]

lemma drGo_nCount_ok {b : List (String × NeighborInfo)} {n : Int} {acc d : ℕ}
    (h : drGo (.nCount n) b acc = .ok d) : b = [] ∧ d = acc := by
  cases b with
  | nil =>
    simp only [drGo] at h
    injection h with h2
    exact ⟨rfl, h2.symm⟩
  | cons e rest =>
    simp only [drGo] at h
    cases h

lemma drBdrDelta_ok_mismatch {r : Record} {d : ℕ} (h : drBdrDelta r = .ok d) :
    d = mismatchCount r := by
  unfold drBdrDelta at h
  unfold mismatchCount
  cases hb : r.baseline_neighbors with
  | none =>
    rw [hb] at h
    injection h with h2
    cases r.final_neighbors <;> simp [h2.symm]
  | some bv =>
    rw [hb] at h
    cases hf : r.final_neighbors with
    | none =>
      rw [hf] at h
      injection h with h2
      cases bv <;> simp [h2.symm]
    | some fv =>
      rw [hf] at h
      cases bv with
      | nCount n => cases h
      | nMap bEntries =>
        cases fv with
        | nMap fEntries => simpa using drGo_nMap_count bEntries fEntries 0 d h
        | nCount n =>
          obtain ⟨hb2, hd⟩ := drGo_nCount_ok h
          simp [hd]

lemma drBdrDelta_ok_of_nbOk {r : Record} (hb : nbOk r.baseline_neighbors = true)
    (hf : nbOk r.final_neighbors = true) : ∃ d, drBdrDelta r = .ok d := by
  unfold drBdrDelta
  cases hb2 : r.baseline_neighbors with
  | none => exact ⟨0, by cases r.final_neighbors <;> rfl⟩
  | some bv =>
    cases hf2 : r.final_neighbors with
    | none => exact ⟨0, by cases bv <;> rfl⟩
    | some fv =>
      cases bv with
      | nCount n => rw [hb2] at hb; simp [nbOk] at hb
      | nMap bEntries =>
        cases fv with
        | nCount n => rw [hf2] at hf; simp [nbOk] at hf
        | nMap fEntries => exact drGo_nMap_ok bEntries fEntries 0

lemma stabGo_ok_invariant :
    ∀ (results : List Record) (s : Stability) (ct : List ℚ) (out : Stability × List ℚ),
      stabGo results s ct = .ok out →
      out.1.total_tests = s.total_tests ∧
      out.1.passed + out.1.partial_ + out.1.failed =
        s.passed + s.partial_ + s.failed + results.length ∧
      out.1.dr_bdr_changes = s.dr_bdr_changes + (results.map mismatchCount).sum := by
  intro results
  induction results with
  | nil =>
    intro s ct out h
    simp only [stabGo] at h
    injection h with h2
    subst h2
    simp
  | cons r rest ih =>
    intro s ct out h
    cases hst : getKey r.status "status" with
    | error e =>
      simp only [stabGo, hst] at h
      cases h
    | ok st =>
      cases hdr : drBdrDelta r with
      | error e =>
        simp only [stabGo, hst, hdr] at h
        cases h
      | ok dlt =>
        simp only [stabGo, hst, hdr] at h
        obtain ⟨h1, h2, h3⟩ := ih _ _ out h
        refine ⟨?_, ?_, ?_⟩
        · rw [h1, statusBump_total]
        · rw [h2, statusBump_counts]
          simp [List.length_cons]
          omega
        · rw [h3, statusBump_dr, drBdrDelta_ok_mismatch hdr]
          simp [List.map_cons, List.sum_cons]
          omega

lemma stabGo_ok_status :
    ∀ (results : List Record) (s : Stability) (ct : List ℚ) (out : Stability × List ℚ),
      stabGo results s ct = .ok out → ∀ r ∈ results, r.status.isSome = true := by
  intro results
  induction results with
  | nil => intro s ct out h r hr; simp at hr
  | cons r rest ih =>
    intro s ct out h r' hr'
    cases hst : getKey r.status "status" with
    | error e =>
      simp only [stabGo, hst] at h
      cases h
    | ok st =>
      cases hdr : drBdrDelta r with
      | error e =>
        simp only [stabGo, hst, hdr] at h
        cases h
      | ok dlt =>
        simp only [stabGo, hst, hdr] at h
        rcases List.mem_cons.mp hr' with rfl | hr2
        · simp [getKey_ok hst]
        · exact ih _ _ out h r' hr2

lemma stabGo_ok_drBdr :
    ∀ (results : List Record) (s : Stability) (ct : List ℚ) (out : Stability × List ℚ),
      stabGo results s ct = .ok out → ∀ r ∈ results, ∃ d, drBdrDelta r = .ok d := by
  intro results
  induction results with
  | nil => intro s ct out h r hr; simp at hr
  | cons r rest ih =>
    intro s ct out h r' hr'
    cases hst : getKey r.status "status" with
    | error e =>
      simp only [stabGo, hst] at h
      cases h
    | ok st =>
      cases hdr : drBdrDelta r with
      | error e =>
        simp only [stabGo, hst, hdr] at h
        cases h
      | ok dlt =>
        simp only [stabGo, hst, hdr] at h
        rcases List.mem_cons.mp hr' with rfl | hr2
        · exact ⟨dlt, hdr⟩
        · exact ih _ _ out h r' hr2

lemma stabGo_ok_of_wf :
    ∀ (results : List Record) (s : Stability) (ct : List ℚ),
      (∀ r ∈ results, r.status.isSome = true ∧ nbOk r.baseline_neighbors = true ∧
        nbOk r.final_neighbors = true) →
      ∃ out, stabGo results s ct = .ok out := by
  intro results
  induction results with
  | nil => intro s ct _; exact ⟨(s, ct), rfl⟩
  | cons r rest ih =>
    intro s ct hall
    obtain ⟨hstS, hb, hf⟩ := hall r (List.mem_cons_self r rest)
    obtain ⟨st, hst⟩ := Option.isSome_iff_exists.mp hstS
    obtain ⟨dlt, hdr⟩ := drBdrDelta_ok_of_nbOk hb hf
    obtain ⟨out, hout⟩ := ih
      { statusBump s st with
        dr_bdr_changes := (statusBump s st).dr_bdr_changes + dlt }
      (match r.convergence_time with
        | some t => ct ++ [t]
        | none => ct)
      (fun r' hr' => hall r' (List.mem_cons_of_mem r hr'))
    refine ⟨out, ?_⟩
    simp only [stabGo, getKey, hst, hdr]
    exact hout

lemma stabGo_nbOk_error :
    ∀ (results : List Record) (s : Stability) (ct : List ℚ) (e : PyErr),
      (∀ r ∈ results, nbOk r.baseline_neighbors = true ∧ nbOk r.final_neighbors = true) →
      stabGo results s ct = .error e → e = .keyError "status" := by
  intro results
  induction results with
  | nil =>
    intro s ct e _ h
    simp only [stabGo] at h
    cases h
  | cons r rest ih =>
    intro s ct e hall h
    cases hst : getKey r.status "status" with
    | error e' =>
      simp only [stabGo, hst] at h
      injection h with h2
      subst h2
      cases hs : r.status with
      | none =>
        simp only [hs, getKey] at hst
        injection hst with h3
        exact h3.symm
      | some st => simp [hs, getKey] at hst
    | ok st =>
      obtain ⟨hb, hf⟩ := hall r (List.mem_cons_self r rest)
      obtain ⟨dlt, hdr⟩ := drBdrDelta_ok_of_nbOk hb hf
      simp only [stabGo, hst, hdr] at h
      exact ih _ _ e (fun r' hr' => hall r' (List.mem_cons_of_mem r hr')) h

lemma analyze_stability_ok_parts {results : List Record} {s : Stability}
    (h : analyze_stability results = .ok s) :
    s.total_tests = results.length ∧
    s.passed + s.partial_ + s.failed = results.length ∧
    s.dr_bdr_changes = (results.map mismatchCount).sum := by
  unfold analyze_stability at h
  cases hg : stabGo results
      { total_tests := results.length, passed := 0, partial_ := 0, failed := 0
        dr_bdr_changes := 0, avg_convergence := 0 } [] with
  | error e => rw [hg] at h; cases h
  | ok out =>
    obtain ⟨s', ct'⟩ := out
    rw [hg] at h
    injection h with h2
    obtain ⟨h1, hcnt, hdr⟩ := stabGo_ok_invariant _ _ _ _ hg
    simp only [] at h1 hcnt hdr
    have hfields : s.total_tests = s'.total_tests ∧
        s.passed = s'.passed ∧ s.partial_ = s'.partial_ ∧ s.failed = s'.failed ∧
        s.dr_bdr_changes = s'.dr_bdr_changes := by
      by_cases hemp : ct'.isEmpty
      · rw [if_pos hemp] at h2
        subst h2
        exact ⟨rfl, rfl, rfl, rfl, rfl⟩
      · rw [if_neg hemp] at h2
        subst h2
        exact ⟨rfl, rfl, rfl, rfl, rfl⟩
    obtain ⟨f1, f2, f3, f4, f5⟩ := hfields
    refine ⟨by rw [f1, h1], by rw [f2, f3, f4]; omega, by rw [f5, hdr]; omega⟩

lemma analyze_stability_stabGo {results : List Record} {s : Stability}
    (h : analyze_stability results = .ok s) :
    ∃ out, stabGo results
      { total_tests := results.length, passed := 0, partial_ := 0, failed := 0
        dr_bdr_changes := 0, avg_convergence := 0 } [] = .ok out := by
  unfold analyze_stability at h
  cases hg : stabGo results
      { total_tests := results.length, passed := 0, partial_ := 0, failed := 0
        dr_bdr_changes := 0, avg_convergence := 0 } [] with
  | error e => rw [hg] at h; cases h
  | ok out => exact ⟨out, rfl⟩

lemma analyze_stability_ok_status {results : List Record} {s : Stability}
    (h : analyze_stability results = .ok s) : ∀ r ∈ results, r.status.isSome = true := by
  obtain ⟨out, hg⟩ := analyze_stability_stabGo h
  exact stabGo_ok_status _ _ _ _ hg

lemma analyze_stability_ok_drBdr {results : List Record} {s : Stability}
    (h : analyze_stability results = .ok s) : ∀ r ∈ results, ∃ d, drBdrDelta r = .ok d := by
  obtain ⟨out, hg⟩ := analyze_stability_stabGo h
  exact stabGo_ok_drBdr _ _ _ _ hg

lemma analyze_stability_ok_of_wf {results : List Record}
    (hall : ∀ r ∈ results, r.status.isSome = true ∧ nbOk r.baseline_neighbors = true ∧
      nbOk r.final_neighbors = true) :
    ∃ s, analyze_stability results = .ok s := by
  obtain ⟨out, hg⟩ := stabGo_ok_of_wf results
    { total_tests := results.length, passed := 0, partial_ := 0, failed := 0
      dr_bdr_changes := 0, avg_convergence := 0 } [] hall
  obtain ⟨s', ct'⟩ := out
  cases ha : analyze_stability results with
  | ok s => exact ⟨s, rfl⟩
  | error e =>
    exfalso
    simp only [analyze_stability, hg] at ha
    cases ha

lemma analyze_stability_nbOk_error {results : List Record} {e : PyErr}
    (hall : ∀ r ∈ results, nbOk r.baseline_neighbors = true ∧ nbOk r.final_neighbors = true)
    (h : analyze_stability results = .error e) : e = .keyError "status" := by
  unfold analyze_stability at h
  cases hg : stabGo results
      { total_tests := results.length, passed := 0, partial_ := 0, failed := 0
        dr_bdr_changes := 0, avg_convergence := 0 } [] with
  | error e' =>
    rw [hg] at h
    injection h with h2
    subst h2
    exact stabGo_nbOk_error _ _ _ _ hall hg
  | ok out =>
    obtain ⟨s', ct'⟩ := out
    rw [hg] at h
    cases h

lemma pct_sum {p q f t : ℕ} (hsum : p + q + f = t) (ht : t ≠ 0) :
    (p : ℚ) / (t : ℚ) * 100 + (q : ℚ) / (t : ℚ) * 100 + (f : ℚ) / (t : ℚ) * 100 = 100 := by
  have ht' : (t : ℚ) ≠ 0 := Nat.cast_ne_zero.mpr ht
  field_simp
  push_cast [← hsum]
  ring

/-! Report lemmas. -/

lemma mem_insertByKey {q p : String × TrendEntry} {l : List (String × TrendEntry)} :
    q ∈ insertByKey p l ↔ q = p ∨ q ∈ l := by
  induction l with
  | nil => simp [insertByKey]
  | cons x rest ih =>
    unfold insertByKey
    by_cases h : p.1 < x.1
    · simp only [if_pos h, List.mem_cons]
      try tauto
    · simp only [if_neg h, List.mem_cons, ih]
      try tauto

lemma mem_sortByKey_aux {q : String × TrendEntry} :
    ∀ (l acc : List (String × TrendEntry)),
      q ∈ l.foldl (fun acc p => insertByKey p acc) acc ↔ q ∈ acc ∨ q ∈ l := by
  intro l
  induction l with
  | nil => intro acc; simp
  | cons x rest ih =>
    intro acc
    simp only [List.foldl_cons, ih, mem_insertByKey, List.mem_cons]
    tauto

lemma mem_sortByKey {q : String × TrendEntry} {l : List (String × TrendEntry)} :
    q ∈ sortByKey l ↔ q ∈ l := by
  unfold sortByKey
  rw [mem_sortByKey_aux]
  simp

lemma blockExtra_ok {t : TrendEntry} (h : t.first_half_avg ≠ 0) :
    ∃ x, blockExtra t = .ok x := by
  unfold blockExtra pyDiv
  by_cases h1 : t.trend = "IMPROVING"
  · simp [h1, h]
  · by_cases h2 : t.trend = "DEGRADING" <;> simp [h1, h2, h]

lemma blocksGo_ok :
    ∀ (l : List (String × TrendEntry)) (acc : List (String × Option ℚ)),
      (∀ p ∈ l, ∃ x, blockExtra p.2 = .ok x) →
      ∃ out, blocksGo l acc = .ok out := by
  intro l
  induction l with
  | nil => intro acc _; exact ⟨acc, rfl⟩
  | cons p rest ih =>
    intro acc hall
    obtain ⟨x, hx⟩ := hall p (List.mem_cons_self p rest)
    obtain ⟨out, hout⟩ := ih (acc ++ [(p.1, x)])
      (fun p' hp' => hall p' (List.mem_cons_of_mem p hp'))
    refine ⟨out, ?_⟩
    simp only [blocksGo, hx]
    exact hout

lemma generate_trend_report_ok {trends : List (String × TrendEntry)} {stability : Stability}
    (htot : stability.total_tests ≠ 0)
    (hfirst : ∀ p ∈ trends, p.2.first_half_avg ≠ 0) :
    ∃ rep, generate_trend_report trends stability = .ok rep := by
  have ht' : (stability.total_tests : ℚ) ≠ 0 := Nat.cast_ne_zero.mpr htot
  have hp : pyDiv (stability.passed : ℚ) (stability.total_tests : ℚ) =
      .ok ((stability.passed : ℚ) / (stability.total_tests : ℚ)) := by simp [pyDiv, ht']
  have hq : pyDiv (stability.partial_ : ℚ) (stability.total_tests : ℚ) =
      .ok ((stability.partial_ : ℚ) / (stability.total_tests : ℚ)) := by simp [pyDiv, ht']
  have hf : pyDiv (stability.failed : ℚ) (stability.total_tests : ℚ) =
      .ok ((stability.failed : ℚ) / (stability.total_tests : ℚ)) := by simp [pyDiv, ht']
  obtain ⟨blocks, hb⟩ := blocksGo_ok (sortByKey trends) []
    (fun p hp' => blockExtra_ok (hfirst p (mem_sortByKey.mp hp')))
  cases hr : generate_trend_report trends stability with
  | ok rep => exact ⟨rep, rfl⟩
  | error e =>
    exfalso
    simp only [generate_trend_report, hp, hq, hf, hb] at hr
    cases hr

/-! Loader lemmas. -/

/-- Setting the `test_run` tag on a record. -/
def tagRecord (ts : String) (r : Record) : Record := { r with test_run := ts }

lemma foldl_append_map {α β : Type} (g : α → β) :
    ∀ (l : List α) (acc : List β), l.foldl (fun a r => a ++ [g r]) acc = acc ++ l.map g := by
  intro l
  induction l with
  | nil => intro acc; simp
  | cons x rest ih =>
    intro acc
    simp only [List.foldl_cons, List.map_cons, ih]
    simp

lemma loadGo_eq :
    ∀ (files : List ResultFile) (acc : List Record),
      loadGo files acc =
        acc ++ (files.map fun f =>
          (f.data.getD []).map (tagRecord (strReplaceEmpty f.dirname "ospf_flap_"))).join := by
  intro files
  induction files with
  | nil => intro acc; simp [loadGo]
  | cons f rest ih =>
    intro acc
    cases hd : f.data with
    | none =>
      simp only [loadGo, hd, ih]
      simp [hd]
    | some data =>
      simp only [loadGo, hd, ih]
      rw [foldl_append_map
        (fun r => { r with test_run := strReplaceEmpty f.dirname "ospf_flap_" }) data acc]
      simp [hd, tagRecord]

lemma load_all_results_eq (files : List ResultFile) :
    load_all_results files =
      (files.map fun f =>
        (f.data.getD []).map (tagRecord (strReplaceEmpty f.dirname "ospf_flap_"))).join := by
  unfold load_all_results
  simpa using loadGo_eq files []

lemma mem_load_all_results {files : List ResultFile} {r' : Record} :
    r' ∈ load_all_results files ↔
      ∃ f ∈ files, ∃ r ∈ f.data.getD [],
        r' = tagRecord (strReplaceEmpty f.dirname "ospf_flap_") r := by
  rw [load_all_results_eq]
  simp only [List.mem_join, List.mem_map]
  constructor
  · rintro ⟨s, ⟨f, hf, rfl⟩, hr⟩
    rcases List.mem_map.mp hr with ⟨r, hrm, rfl⟩
    exact ⟨f, hf, r, hrm, rfl⟩
  · rintro ⟨f, hf, r, hrm, rfl⟩
    exact ⟨_, ⟨f, hf, rfl⟩, List.mem_map.mpr ⟨r, hrm, rfl⟩⟩

lemma wfRecord_tagRecord (ts : String) (r : Record) :
    wfRecord (tagRecord ts r) = wfRecord r := rfl

lemma posTimes_tagRecord (ts : String) (r : Record) :
    posTimes (tagRecord ts r) = posTimes r := rfl

/-! The pipeline after loading: success on schema-valid, positive-time,
nonempty data. -/

lemma wfRecord_parts {r : Record} (h : wfRecord r = true) :
    r.device.isSome = true ∧ r.interface.isSome = true ∧ r.status.isSome = true ∧
      nbOk r.baseline_neighbors = true ∧ nbOk r.final_neighbors = true := by
  unfold wfRecord at h
  simp only [Bool.and_eq_true] at h
  tauto

lemma convWF_of_wfRecord {r : Record} (h : wfRecord r = true) : convWF r = true := by
  obtain ⟨h1, h2, h3, _, _⟩ := wfRecord_parts h
  rw [convWF_iff]
  exact ⟨h1, h2, fun _ => h3⟩

lemma measurementsOf_time_mem :
    ∀ (results : List Record) (k : String) (m : Measurement),
      m ∈ measurementsOf results k → ∃ r ∈ results, r.convergence_time = some m.time := by
  intro results
  induction results with
  | nil => intro k m hm; simp [measurementsOf] at hm
  | cons r rest ih =>
    intro k m hm
    cases hct : r.convergence_time with
    | none =>
      simp only [measurementsOf, hct] at hm
      obtain ⟨r', hr', ht⟩ := ih k m hm
      exact ⟨r', List.mem_cons_of_mem r hr', ht⟩
    | some t =>
      simp only [measurementsOf, hct] at hm
      by_cases hk : recKeyTotal r = k
      · rw [if_pos hk] at hm
        rcases List.mem_cons.mp hm with rfl | hm2
        · exact ⟨r, List.mem_cons_self r rest, hct⟩
        · obtain ⟨r', hr', ht⟩ := ih k m hm2
          exact ⟨r', List.mem_cons_of_mem r hr', ht⟩
      · rw [if_neg hk] at hm
        obtain ⟨r', hr', ht⟩ := ih k m hm
        exact ⟨r', List.mem_cons_of_mem r hr', ht⟩

lemma first_half_avg_pos {results : List Record} {ms : List Measurement} {k : String}
    (hms : ms = measurementsOf results k) (hlen : 2 ≤ ms.length)
    (hpos : ∀ r ∈ results, posTimes r = true) :
    0 < (mkTrendEntry ms).first_half_avg := by
  have htimes : ∀ t ∈ ms.map Measurement.time, (0 : ℚ) < t := by
    intro t ht
    rcases List.mem_map.mp ht with ⟨m, hm, rfl⟩
    obtain ⟨r, hr, hct⟩ := measurementsOf_time_mem results k m (hms ▸ hm)
    have := hpos r hr
    unfold posTimes at this
    rw [hct] at this
    simpa using this
  have hn : (ms.map Measurement.time).length = ms.length := List.length_map _ _
  set ts := ms.map Measurement.time with hts
  have hhalf : 1 ≤ ts.length / 2 := by omega
  have htake : (ts.take (ts.length / 2)).length = ts.length / 2 := by
    rw [List.length_take]
    omega
  have hne : ts.take (ts.length / 2) ≠ [] := by
    intro hc
    rw [hc] at htake
    simp at htake
    omega
  have hsum : 0 < (ts.take (ts.length / 2)).sum := by
    apply List.sum_pos
    · intro a ha
      exact htimes a (List.take_subset _ _ ha)
    · exact hne
  have hden : (0 : ℚ) < ((ts.length / 2 : ℕ) : ℚ) := by
    exact_mod_cast hhalf
  show 0 < (ts.take (ts.length / 2)).sum / ((ts.length / 2 : ℕ) : ℚ)
  exact div_pos hsum hden

lemma runAnalysis_ok {results : List Record} (hne : results ≠ [])
    (hwf : ∀ r ∈ results, wfRecord r = true)
    (hpos : ∀ r ∈ results, posTimes r = true) :
    ∃ rep, runAnalysis results = .ok rep := by
  obtain ⟨trends, htr⟩ := (analyze_convergence_trends_ok_iff results).mpr
    (fun r hr => convWF_of_wfRecord (hwf r hr))
  obtain ⟨stab, hst⟩ := analyze_stability_ok_of_wf
    (fun r hr => ⟨(wfRecord_parts (hwf r hr)).2.2.1, (wfRecord_parts (hwf r hr)).2.2.2.1,
      (wfRecord_parts (hwf r hr)).2.2.2.2⟩)
  have htot : stab.total_tests ≠ 0 := by
    rw [(analyze_stability_ok_parts hst).1]
    simpa using hne
  have hfirst : ∀ p ∈ trends, p.2.first_half_avg ≠ 0 := by
    rintro ⟨k, e⟩ hp
    obtain ⟨hlen, rfl⟩ := (trends_mem_iff htr k e).mp hp
    exact ne_of_gt (first_half_avg_pos rfl hlen hpos)
  obtain ⟨rep, hrep⟩ := generate_trend_report_ok htot hfirst
  refine ⟨rep, ?_⟩
  simp only [runAnalysis, htr, hst]
  exact hrep

lemma runAnalysis_nil : runAnalysis ([] : List Record) = .error .zeroDivisionError := by decide

/-! Helper lemmas relating the trend entry's statistics to the claim-side
  mean formulation. -/

lemma take_half_length (ts : List ℚ) :
    (ts.take (ts.length / 2)).length = ts.length / 2 := by
  rw [List.length_take, min_eq_left (Nat.div_le_self _ 2)]

lemma mean_take_half (ts : List ℚ) :
    mean (ts.take (ts.length / 2)) =
      (ts.take (ts.length / 2)).sum / ((ts.length / 2 : ℕ) : ℚ) := by
  unfold mean
  rw [take_half_length]

lemma mean_drop_half (ts : List ℚ) :
    mean (ts.drop (ts.length / 2)) =
      (ts.drop (ts.length / 2)).sum / ((ts.length - ts.length / 2 : ℕ) : ℚ) := by
  unfold mean
  rw [List.length_drop]

lemma code_trend_eq_trendSpec (ts : List ℚ) :
    (if (ts.drop (ts.length / 2)).sum / ((ts.length - ts.length / 2 : ℕ) : ℚ) <
        (ts.take (ts.length / 2)).sum / ((ts.length / 2 : ℕ) : ℚ) then "IMPROVING"
      else if (ts.drop (ts.length / 2)).sum / ((ts.length - ts.length / 2 : ℕ) : ℚ) >
          (ts.take (ts.length / 2)).sum / ((ts.length / 2 : ℕ) : ℚ) then "DEGRADING"
      else "STABLE") = trendSpec ts := by
  unfold trendSpec
  rw [mean_take_half, mean_drop_half]
  set b := (ts.take (ts.length / 2)).sum / ((ts.length / 2 : ℕ) : ℚ)
  set a := (ts.drop (ts.length / 2)).sum / ((ts.length - ts.length / 2 : ℕ) : ℚ)
  rcases lt_trichotomy a b with h | h | h
  · rw [if_pos h, if_neg (by exact not_lt.mpr (le_of_lt h)), if_pos h]
  · rw [if_neg (by rw [h]; exact lt_irrefl b), if_neg (by rw [h]; exact lt_irrefl b),
      if_neg (by rw [h]; exact lt_irrefl b), if_neg (by rw [h]; exact lt_irrefl b)]
  · rw [if_neg (not_lt.mpr (le_of_lt h)), if_pos h, if_pos h]

/-! Concrete records and values used by the claims' witnesses and
counterexamples. -/

/-- A passing record with convergence time 5. -/
def rec1 : Record := ⟨some "R1", some "Gi0/0", some "PASSED", some 5, none, none, "t1"⟩

/-- A passing record with convergence time 10 on the same interface. -/
def rec2 : Record := ⟨some "R1", some "Gi0/0", some "PASSED", some 10, none, none, "t2"⟩

/-- A failing record without convergence time. -/
def rec3 : Record := ⟨some "R2", some "Gi0/1", some "FAILED", none, none, none, "t1"⟩

/-- A partial record without convergence time. -/
def recP : Record := ⟨some "R1", some "Gi0/1", some "PARTIAL", none, none, none, "t3"⟩

/-- Two records on one interface: times 5 then 10. -/
def rs1 : List Record := [rec1, rec2]

/-- The trend entry computed for rs1's single key. -/
def e1 : TrendEntry := mkTrendEntry (measurementsOf rs1 "R1-Gi0/0")

/-- The trend map computed for rs1. -/
def T1 : List (String × TrendEntry) := [("R1-Gi0/0", e1)]

/-- C1: for every device-interface key in the trend map (its ordered sample
list has n >= 2 convergence times), `analyze_convergence_trends` splits the
times at floor(n/2), records the two half means, and classifies the trend
as DEGRADING when the second-half mean is greater, IMPROVING when it is
smaller, and STABLE on a tie. -/
theorem trend_split_classification
    (results : List Record) (trends : List (String × TrendEntry)) (k : String)
    (e : TrendEntry)
    (hok : analyze_convergence_trends results = .ok trends)
    (hmem : (k, e) ∈ trends) :
    2 ≤ ((measurementsOf results k).map Measurement.time).length ∧
    e.data = measurementsOf results k ∧
    e.first_half_avg =
      mean (((measurementsOf results k).map Measurement.time).take
        (((measurementsOf results k).map Measurement.time).length / 2)) ∧
    e.second_half_avg =
      mean (((measurementsOf results k).map Measurement.time).drop
        (((measurementsOf results k).map Measurement.time).length / 2)) ∧
    e.trend = trendSpec ((measurementsOf results k).map Measurement.time) := by
  obtain ⟨hlen, rfl⟩ := (trends_mem_iff hok k e).mp hmem
  refine ⟨?_, rfl, ?_, ?_, ?_⟩
  · rw [List.length_map]
    exact hlen
  · rw [mean_take_half]
    rfl
  · rw [mean_drop_half]
    rfl
  · rw [← code_trend_eq_trendSpec]
    rfl

/-- C1 witness: on two samples 5 then 10 for key R1-Gi0/0, the halves are
[5] and [10] and the classification is read off the trend entry. -/
theorem trend_split_classification_witness :
    2 ≤ ((measurementsOf rs1 "R1-Gi0/0").map Measurement.time).length ∧
    e1.data = measurementsOf rs1 "R1-Gi0/0" ∧
    e1.first_half_avg =
      mean (((measurementsOf rs1 "R1-Gi0/0").map Measurement.time).take
        (((measurementsOf rs1 "R1-Gi0/0").map Measurement.time).length / 2)) ∧
    e1.second_half_avg =
      mean (((measurementsOf rs1 "R1-Gi0/0").map Measurement.time).drop
        (((measurementsOf rs1 "R1-Gi0/0").map Measurement.time).length / 2)) ∧
    e1.trend = trendSpec ((measurementsOf rs1 "R1-Gi0/0").map Measurement.time) :=
  trend_split_classification rs1 T1 "R1-Gi0/0" e1 (by decide) (by decide)

/-- C2: a key appears in the trend map iff at least 2 of its records carry
`convergence_time`; records lacking the field contribute no sample, and the
entry's `measurements` counter equals the number of contributing records. -/
theorem trend_map_membership
    (results : List Record) (trends : List (String × TrendEntry)) (k : String)
    (hok : analyze_convergence_trends results = .ok trends) :
    ((∃ e, (k, e) ∈ trends) ↔
      2 ≤ results.countP (fun r => decide (recKeyTotal r = k) && r.convergence_time.isSome)) ∧
    ∀ e, (k, e) ∈ trends →
      e.measurements =
        results.countP (fun r => decide (recKeyTotal r = k) && r.convergence_time.isSome) := by
  have hcount : ∀ rs : List Record, (measurementsOf rs k).length =
      rs.countP (fun r => decide (recKeyTotal r = k) && r.convergence_time.isSome) := by
    intro rs
    induction rs with
    | nil => simp [measurementsOf]
    | cons r rest ih =>
      cases hct : r.convergence_time with
      | none => simp [measurementsOf, hct, List.countP_cons, ih]
      | some t =>
        by_cases hk : recKeyTotal r = k
        · simp [measurementsOf, hct, hk, List.countP_cons, ih]
        · simp [measurementsOf, hct, hk, List.countP_cons, ih]
  constructor
  · constructor
    · rintro ⟨e, he⟩
      obtain ⟨hlen, _⟩ := (trends_mem_iff hok k e).mp he
      rw [← hcount]
      exact hlen
    · intro hc
      rw [← hcount] at hc
      exact ⟨mkTrendEntry (measurementsOf results k),
        (trends_mem_iff hok k _).mpr ⟨hc, rfl⟩⟩
  · intro e he
    obtain ⟨hlen, rfl⟩ := (trends_mem_iff hok k e).mp he
    rw [← hcount]
    rfl

/-- C2 witness: for rs1 the single key's entry counts exactly its 2
contributing records. -/
theorem trend_map_membership_witness :
    e1.measurements =
      rs1.countP (fun r => decide (recKeyTotal r = "R1-Gi0/0") && r.convergence_time.isSome) :=
  (trend_map_membership rs1 T1 "R1-Gi0/0" (by decide)).2 e1 (by decide)

/-- C3 counterexample: on an empty record list the computation after loading
does fail: `generate_trend_report`'s percentage lines divide `passed` by
`total_tests = 0`, so the pipeline raises ZeroDivisionError, contrary to the
claim that the empty case raises no further failure. -/
theorem pipeline_empty_divzero_cex :
    runAnalysis ([] : List Record) = .error .zeroDivisionError := runAnalysis_nil

/-- C3 (amended): for every nonempty list of loaded records that are
schema-valid (device, interface, status present; neighbor fields absent or
mappings) with positive convergence times, the whole computation after
loading (trends, stability, report) raises no failure; the empty record list
is excluded because the report's percentage lines divide by
`total_tests = 0`. -/
theorem pipeline_no_failure_amended (results : List Record) (hne : results ≠ [])
    (hwf : ∀ r ∈ results, wfRecord r = true)
    (hpos : ∀ r ∈ results, posTimes r = true) :
    ∃ rep, runAnalysis results = .ok rep :=
  runAnalysis_ok hne hwf hpos

/-- C3 witness: the two-record list rs1 runs the whole pipeline without
failure. -/
theorem pipeline_no_failure_amended_witness : ∃ rep, runAnalysis rs1 = .ok rep :=
  pipeline_no_failure_amended rs1 (by decide) (by decide) (by decide)

/-- C4 (amended): on schema-valid, positive-time data, the analyzer exits
non-zero exactly when the results directory is missing, no result files are
found, or the files yield zero records (the latter through the uncaught
ZeroDivisionError of the report on `total_tests = 0`); on such data it exits
zero in every other case.  Outside that schema an uncaught exception also
exits non-zero even though files were found and records loaded (see the
counterexample). -/
theorem main_exit_status (dirExists : Bool) (files : List ResultFile)
    (hwf : ∀ f ∈ files, ∀ r ∈ f.data.getD [], wfRecord r = true ∧ posTimes r = true) :
    main dirExists files ≠ 0 ↔
      dirExists = false ∨ files = [] ∨ load_all_results files = [] := by
  cases dirExists with
  | false => simp [main, find_all_result_files]
  | true =>
    by_cases hf : files = []
    · subst hf
      simp [main, find_all_result_files, load_all_results, loadGo]
    · have hje : files.isEmpty = false := by
        cases files with
        | nil => exact absurd rfl hf
        | cons a l => rfl
      by_cases hl : load_all_results files = []
      · have hmain : main true files = 1 := by
          simp [main, find_all_result_files, hje, hl, runAnalysis_nil]
        simp [hmain, hl]
      · have hwf' : ∀ r ∈ load_all_results files, wfRecord r = true := by
          intro r' hr'
          obtain ⟨f, hf', r, hrm, rfl⟩ := mem_load_all_results.mp hr'
          rw [wfRecord_tagRecord]
          exact (hwf f hf' r hrm).1
        have hpos' : ∀ r ∈ load_all_results files, posTimes r = true := by
          intro r' hr'
          obtain ⟨f, hf', r, hrm, rfl⟩ := mem_load_all_results.mp hr'
          rw [posTimes_tagRecord]
          exact (hwf f hf' r hrm).2
        obtain ⟨rep, hrep⟩ := runAnalysis_ok hl hwf' hpos'
        have hmain : main true files = 0 := by
          simp [main, find_all_result_files, hje, hrep]
        simp [hmain, hf, hl]

/-- C4 witness: one parsed file with one valid record exits zero, and the
equivalence instantiates. -/
theorem main_exit_status_witness :
    main true [⟨"ospf_flap_a", some [rec1]⟩] ≠ 0 ↔
      true = false ∨ ([⟨"ospf_flap_a", some [rec1]⟩] : List ResultFile) = [] ∨
        load_all_results [⟨"ospf_flap_a", some [rec1]⟩] = [] :=
  main_exit_status true [⟨"ospf_flap_a", some [rec1]⟩] (by decide)

/-- A passing record with convergence time 20 seconds. -/
def rec20 : Record := ⟨some "R1", some "Gi0/0", some "PASSED", some 20, none, none, "t1"⟩

/-- The stability counters computed for [rec20]. -/
def stab20 : Stability :=
  { total_tests := 1, passed := 1, partial_ := 0, failed := 0
    dr_bdr_changes := 0, avg_convergence := 20 }

/-- The report computed for the single record rec20. -/
def rep20 : Report :=
  { total_tests := 1, passed_pct := 100, partial_pct := 0, failed_pct := 0
    interface_blocks := [], degrading_interfaces := []
    warn_degrading := false, warn_dr_bdr := false, warn_convergence := true
    success_line := true }

/-- C5 counterexample: on one PASSED record with a 20-second convergence
time, the `avg_convergence > 10` warning fires and the success line is still
emitted (the code gates the success line on "no degrading interfaces and
failed == 0", not on "no warning fired"). -/
theorem success_line_with_warning_cex :
    runAnalysis [rec20] = .ok rep20 ∧
    rep20.warn_convergence = true ∧ rep20.success_line = true :=
  ⟨by decide, rfl, rfl⟩

/-- C5 (amended): each of the three warnings is emitted independently when
its condition holds, but the success line appears iff there is no key with
trend DEGRADING and `failed = 0` — not iff no warning fired. -/
theorem recommendations_flags_amended
    (trends : List (String × TrendEntry)) (stability : Stability) (rep : Report)
    (h : generate_trend_report trends stability = .ok rep) :
    (rep.warn_degrading = true ↔ ∃ p ∈ trends, p.2.trend = "DEGRADING") ∧
    (rep.warn_dr_bdr = true ↔ (stability.dr_bdr_changes : ℚ) > stabilityDictLen * (3 / 10)) ∧
    (rep.warn_convergence = true ↔ stability.avg_convergence > 10) ∧
    (rep.success_line = true ↔
      (¬ ∃ p ∈ trends, p.2.trend = "DEGRADING") ∧ stability.failed = 0) := by
  unfold generate_trend_report at h
  split at h
  · cases h
  · cases h
  · cases h
  · split at h
    · cases h
    · injection h with h2
      subst h2
      have hdeg : (¬ ((trends.filter fun p => p.2.trend = "DEGRADING").map Prod.fst).isEmpty
          = true) ↔ ∃ p ∈ trends, p.2.trend = "DEGRADING" := by
        rw [List.isEmpty_iff]
        simp only [List.map_eq_nil_iff, List.filter_eq_nil_iff]
        push_neg
        constructor
        · rintro ⟨p, hp, hne⟩
          exact ⟨p, hp, by simpa using hne⟩
        · rintro ⟨p, hp, he⟩
          exact ⟨p, hp, by simpa using he⟩
      refine ⟨?_, ?_, ?_, ?_⟩
      · simp only [Bool.not_eq_true'] at hdeg ⊢
        rw [← hdeg]
        constructor
        · intro hb
          simp [hb]
        · intro hb
          simp only [Bool.not_eq_true] at hb
          simpa using hb
      · simp
      · simp
      · simp only [Bool.and_eq_true, decide_eq_true_eq]
        constructor
        · rintro ⟨h1, h2⟩
          refine ⟨?_, h2⟩
          rw [← hdeg]
          simp [h1]
        · rintro ⟨h1, h2⟩
          refine ⟨?_, h2⟩
          by_contra hne
          exact h1 (hdeg.mp hne)

/-- C5 witness: the convergence warning equivalence instantiated at the
rec20 report. -/
theorem recommendations_flags_amended_witness :
    rep20.warn_convergence = true ↔ stab20.avg_convergence > 10 :=
  (recommendations_flags_amended [] stab20 rep20 (by decide)).2.2.1

/-- Baseline neighbor mapping: 1.1.1.1 FULL/DR, 2.2.2.2 FULL/BDR. -/
def nb1 : NeighborsVal := .nMap [("1.1.1.1", ⟨"FULL/DR"⟩), ("2.2.2.2", ⟨"FULL/BDR"⟩)]

/-- Final neighbor mapping: 1.1.1.1 FULL/BDR (changed), 3.3.3.3 FULL/DR. -/
def nb2 : NeighborsVal := .nMap [("1.1.1.1", ⟨"FULL/BDR"⟩), ("3.3.3.3", ⟨"FULL/DR"⟩)]

/-- A record whose neighbor mappings disagree on 1.1.1.1's state. -/
def rec6 : Record := ⟨some "R1", some "Gi0/0", some "PASSED", none, some nb1, some nb2, "t1"⟩

/-- The stability counters computed for [rec6]. -/
def sC6 : Stability :=
  { total_tests := 1, passed := 1, partial_ := 0, failed := 0
    dr_bdr_changes := 1, avg_convergence := 0 }

/-- C6: the dr_bdr_changes counter equals, summed over the records, the
number of neighbor keys present in both neighbor mappings whose state
strings differ; records lacking either field (or whose fields are not both
mappings) contribute nothing. -/
theorem dr_bdr_changes_count (results : List Record) (s : Stability)
    (h : analyze_stability results = .ok s) :
    s.dr_bdr_changes = (results.map mismatchCount).sum :=
  (analyze_stability_ok_parts h).2.2

/-- C6 witness: one record with exactly one mismatching common neighbor. -/
theorem dr_bdr_changes_count_witness :
    sC6.dr_bdr_changes = ([rec6].map mismatchCount).sum :=
  dr_bdr_changes_count [rec6] sC6 (by decide)

/-- A record whose neighbor fields are the integer counts written by the
scalable flap test. -/
def recCount : Record :=
  ⟨some "R1", some "Gi0/0", some "PASSED", some 20, some (.nCount 3), some (.nCount 3), "t1"⟩

/-- The all-zero stability record. -/
def stab0 : Stability :=
  { total_tests := 0, passed := 0, partial_ := 0, failed := 0
    dr_bdr_changes := 0, avg_convergence := 0 }

/-- C4 counterexample: with the directory present, one result file found and
one record loaded — a case the claim says exits zero — the analyzer exits
non-zero: the record's integer neighbor counts make `analyze_stability`
raise TypeError, which the interpreter turns into a non-zero exit. -/
theorem main_exit_nonzero_cex :
    main true [⟨"ospf_flap_20250101", some [recCount]⟩] ≠ 0 ∧
    ([⟨"ospf_flap_20250101", some [recCount]⟩] : List ResultFile) ≠ [] ∧
    load_all_results [⟨"ospf_flap_20250101", some [recCount]⟩] ≠ [] := by
  refine ⟨by decide, by decide, by decide⟩

/-- C7 counterexample: on a record whose `baseline_neighbors` and
`final_neighbors` are integer counts, `analyze_stability` raises TypeError
(`for neighbor in <int>` is not iterable) — it does not silently skip the
comparison. -/
theorem integer_neighbors_type_error_cex :
    analyze_stability [recCount] = .error .typeError := by decide

/-- C7 (amended): a record whose neighbor fields are both integer counts
makes `analyze_stability` raise (TypeError at the iteration of the integer)
rather than succeed; the DR/BDR logic does not silently do nothing. -/
theorem integer_neighbors_raise_amended (results : List Record) (r : Record)
    (nb nf : Int) (hr : r ∈ results)
    (hb : r.baseline_neighbors = some (.nCount nb))
    (hf : r.final_neighbors = some (.nCount nf)) :
    ∀ s, analyze_stability results ≠ .ok s := by
  intro s hok
  obtain ⟨d, hd⟩ := analyze_stability_ok_drBdr hok r hr
  rw [drBdrDelta, hb, hf] at hd
  cases hd

/-- C7 witness: the amended statement instantiated on the concrete
count-valued record. -/
theorem integer_neighbors_raise_amended_witness :
    analyze_stability [recCount] ≠ .ok stab0 :=
  integer_neighbors_raise_amended [recCount] recCount 3 3 (by decide) (by decide)
    (by decide) stab0

/-- Three records: one PASSED (time 5), one PARTIAL, one FAILED. -/
def rs8 : List Record := [rec1, recP, rec3]

/-- The stability counters computed for rs8. -/
def s8 : Stability :=
  { total_tests := 3, passed := 1, partial_ := 1, failed := 1
    dr_bdr_changes := 0, avg_convergence := 5 }

/-- C8: every record lands in exactly one of passed / partial / failed, so
the three counters sum to total_tests, and the three exact percentages over
total_tests sum to 100. -/
theorem stability_partition (results : List Record) (s : Stability)
    (h : analyze_stability results = .ok s) :
    s.passed + s.partial_ + s.failed = s.total_tests ∧
    (s.total_tests ≠ 0 →
      (s.passed : ℚ) / (s.total_tests : ℚ) * 100 +
        (s.partial_ : ℚ) / (s.total_tests : ℚ) * 100 +
        (s.failed : ℚ) / (s.total_tests : ℚ) * 100 = 100) := by
  obtain ⟨h1, h2, _⟩ := analyze_stability_ok_parts h
  refine ⟨by omega, fun ht => pct_sum (by omega) ht⟩

/-- C8 witness: the partition and percentage identity on three records with
one record of each status. -/
theorem stability_partition_witness :
    s8.passed + s8.partial_ + s8.failed = s8.total_tests ∧
    (s8.passed : ℚ) / (s8.total_tests : ℚ) * 100 +
      (s8.partial_ : ℚ) / (s8.total_tests : ℚ) * 100 +
      (s8.failed : ℚ) / (s8.total_tests : ℚ) * 100 = 100 :=
  ⟨(stability_partition rs8 s8 (by decide)).1,
    (stability_partition rs8 s8 (by decide)).2 (by decide)⟩

/-- A result file whose directory name contains the marker twice. -/
def fileWeird : ResultFile := ⟨"ospf_flap_ospf_flap_1", some [rec1]⟩

/-- C9 counterexample: the loader computes the tag with
`str.replace('ospf_flap_', '')`, which removes every occurrence, not just
the prefix: on directory `ospf_flap_ospf_flap_1` the record is tagged "1",
while removing only the prefix would give `ospf_flap_1`. -/
theorem test_run_tag_prefix_cex :
    load_all_results [fileWeird] = [{ rec1 with test_run := "1" }] ∧
    stripRunPrefixSpec "ospf_flap_ospf_flap_1" = "ospf_flap_1" ∧
    ("1" : String) ≠ "ospf_flap_1" :=
  ⟨by decide, by decide, by decide⟩

/-- C9 (amended): `load_all_results` returns exactly the concatenation, in
file order then within-file order, of each parsed file's records with only
the `test_run` field rewritten to the parent directory name with all
occurrences of `ospf_flap_` removed (Python `str.replace`), which agrees
with prefix removal whenever the remainder contains no further
occurrence. -/
theorem load_all_results_tagging_amended (files : List ResultFile) :
    load_all_results files =
      (files.map fun f =>
        (f.data.getD []).map (tagRecord (strReplaceEmpty f.dirname "ospf_flap_"))).join :=
  load_all_results_eq files

/-- C10: `analyze_convergence_trends` succeeds exactly when every record has
device and interface, and status whenever `convergence_time` is present; a
violation yields a KeyError.  `analyze_stability` requires status on every
record (KeyError otherwise, given well-formed neighbor fields), and the
optional fields may be absent without harm. -/
theorem required_fields_precondition (results : List Record) :
    ((∃ t, analyze_convergence_trends results = .ok t) ↔
      ∀ r ∈ results, r.device.isSome = true ∧ r.interface.isSome = true ∧
        (r.convergence_time.isSome = true → r.status.isSome = true)) ∧
    ((¬ ∀ r ∈ results, convWF r = true) →
      ∃ key, analyze_convergence_trends results = .error (.keyError key)) ∧
    ((∃ s, analyze_stability results = .ok s) → ∀ r ∈ results, r.status.isSome = true) ∧
    ((∀ r ∈ results, r.status.isSome = true ∧ nbOk r.baseline_neighbors = true ∧
        nbOk r.final_neighbors = true) → ∃ s, analyze_stability results = .ok s) ∧
    ((∀ r ∈ results, nbOk r.baseline_neighbors = true ∧ nbOk r.final_neighbors = true) →
      (¬ ∀ r ∈ results, r.status.isSome = true) →
      analyze_stability results = .error (.keyError "status")) := by
  refine ⟨?_, ?_, ?_, analyze_stability_ok_of_wf, ?_⟩
  · rw [analyze_convergence_trends_ok_iff]
    constructor
    · intro h r hr
      exact (convWF_iff r).mp (h r hr)
    · intro h r hr
      exact (convWF_iff r).mpr (h r hr)
  · intro hnot
    cases hact : analyze_convergence_trends results with
    | ok t => exact absurd ((analyze_convergence_trends_ok_iff results).mp ⟨t, hact⟩) hnot
    | error e =>
      obtain ⟨key, rfl⟩ := analyze_convergence_trends_error_key hact
      exact ⟨key, rfl⟩
  · rintro ⟨s, hs⟩
    exact analyze_stability_ok_status hs
  · intro hnb hnst
    cases hst : analyze_stability results with
    | ok s => exact absurd (analyze_stability_ok_status hst) hnst
    | error e => rw [analyze_stability_nbOk_error hnb hst]

/-- C10 witness: rs1's records carry all required fields, so the trend
analysis succeeds. -/
theorem required_fields_precondition_witness :
    ∃ t, analyze_convergence_trends rs1 = .ok t :=
  (required_fields_precondition rs1).1.mpr (by decide)

end Tend
